import Mathlib

/-
Shallow embedding of the statistics library in `src/src/lib.rs` (Rust crate
`stats`): `mean`, `stddev`, `median`, `l2` and the shared reduction
`summation_power`, all operating on slices of `f64`.

Value model `F64`: an IEEE-754 double is modelled as either `nan`, a signed
infinity `inf neg` (`inf true` is `-inf`, `inf false` is `+inf`), or a finite
value `fin q` carrying an exact rational.  Arithmetic on finite values is
exact (rounding of `f64` arithmetic is abstracted away; the two zeros of
IEEE-754 are collapsed into the single rational `0`), while the propagation
of `nan` and the infinities, division by zero, and the partial comparison
used by `median`'s sort follow the IEEE-754 rules that the Rust `f64`
operations implement.  `sqrt` is modelled by `Rat.sqrt`, which is exact on
perfect squares.

Samples are `List F64` (the Rust functions borrow a slice `&[f64]`), and a
Rust `Option<f64>` result is `Option F64`.  `median`'s sort comparator
`|a, b| a.partial_cmp(b).unwrap()` can panic on `NaN`; a panicking call is
modelled by the value `none` of an outer `Option` layer, so `median` has
type `List F64 → Option (Option F64)`: `none` is a panic, `some none` is
Rust's `None`, `some (some v)` is Rust's `Some(v)`.
-/

inductive F64 where
  | nan : F64
  | inf (neg : Bool) : F64
  | fin (q : ℚ) : F64
deriving DecidableEq

namespace F64

/-- IEEE-754 addition on the model: `nan` is absorbing, opposite infinities
give `nan`, an infinity absorbs finite values, finite addition is exact. -/
def add : F64 → F64 → F64
  | nan, nan => nan
  | nan, inf _ => nan
  | nan, fin _ => nan
  | inf _, nan => nan
  | fin _, nan => nan
  | inf s, inf t => if s = t then inf s else nan
  | inf s, fin _ => inf s
  | fin _, inf t => inf t
  | fin a, fin b => fin (a + b)

/-- Negation: flips the sign of an infinity or a finite value, keeps `nan`. -/
def neg : F64 → F64
  | nan => nan
  | inf s => inf (!s)
  | fin a => fin (-a)

/-- IEEE-754 subtraction `x - y = x + (-y)` (exact, no rounding in the model). -/
def sub (a b : F64) : F64 :=
  add a (neg b)

/-- Model of Rust `x.powf(2.0)`: `nan` stays `nan`, both infinities square to
`+inf`, finite values square exactly. -/
def powf2 : F64 → F64
  | nan => nan
  | inf _ => inf false
  | fin a => fin (a ^ 2)

/-- IEEE-754 division: `nan` is absorbing, `inf/inf` is `nan`, `inf/finite`
is a signed infinity, `finite/inf` is zero, `x/0` is `nan` for `x = 0` and a
signed infinity otherwise, and finite division is exact. -/
def div : F64 → F64 → F64
  | nan, nan => nan
  | nan, inf _ => nan
  | nan, fin _ => nan
  | inf _, nan => nan
  | fin _, nan => nan
  | inf _, inf _ => nan
  | inf s, fin b => if b < 0 then inf (!s) else inf s
  | fin _, inf _ => fin 0
  | fin a, fin b =>
    if b = 0 then
      if a = 0 then nan else if a < 0 then inf true else inf false
    else fin (a / b)

/-- Model of Rust `f64::sqrt`: `nan` for `nan` and negative arguments,
`+inf` for `+inf`, and `Rat.sqrt` (exact on perfect squares) on finite
non-negative values. -/
def sqrt : F64 → F64
  | nan => nan
  | inf true => nan
  | inf false => inf false
  | fin a => if a < 0 then nan else fin (Rat.sqrt a)

/-- Model of `f64::partial_cmp`: `none` whenever `nan` is involved,
otherwise `some` of the order `-inf < finite (by rational order) < +inf`. -/
def pcmp : F64 → F64 → Option Ordering
  | nan, nan => none
  | nan, inf _ => none
  | nan, fin _ => none
  | inf _, nan => none
  | fin _, nan => none
  | inf true, inf true => some Ordering.eq
  | inf true, inf false => some Ordering.lt
  | inf false, inf true => some Ordering.gt
  | inf false, inf false => some Ordering.eq
  | inf true, fin _ => some Ordering.lt
  | inf false, fin _ => some Ordering.gt
  | fin _, inf true => some Ordering.gt
  | fin _, inf false => some Ordering.lt
  | fin a, fin b =>
    if a < b then some Ordering.lt
    else if a = b then some Ordering.eq
    else some Ordering.gt

/-- The `<=` induced by `pcmp`: true exactly when `pcmp` returns `lt` or
`eq` (so always false against `nan`). -/
def ble (a b : F64) : Bool :=
  match pcmp a b with
  | some Ordering.lt => true
  | some Ordering.eq => true
  | _ => false

/-- True exactly on finite values (`nan` and the infinities are not finite). -/
def isFinite : F64 → Bool
  | fin _ => true
  | _ => false

end F64

/-- Mathematical sum of a list of `F64` values (specification-side notion
used to state what the code's accumulating loops compute). -/
def Fsum (l : List F64) : F64 :=
  l.foldr F64.add (F64.fin 0)

/-- Embedding of `mean` (src/src/lib.rs:42): returns `Some(0.0)` on the
empty slice; otherwise one pass accumulates a float counter `x` (incremented
by `1.0` per element, not cast from the length) and a running sum `y`, and
the result is `Some(y / x)`. -/
def mean (nums : List F64) : Option F64 :=
  if nums = [] then some (F64.fin 0)
  else
    let xy := nums.foldl
      (fun p i => (F64.add p.1 (F64.fin 1), F64.add p.2 i))
      (F64.fin 0, F64.fin 0)
    some (F64.div xy.2 xy.1)

/-- Embedding of `summation_power` (src/src/lib.rs:202): folds
`total += (i - offset).powf(2.0)` over the slice, starting from `0.0`.
(The source's `to_owned` working copy and `&mut` iteration have no
observable effect and are dropped.) -/
def summation_power (nums : List F64) (offset : F64) : F64 :=
  nums.foldl (fun total i => F64.add total (F64.powf2 (F64.sub i offset))) (F64.fin 0)

/-- Embedding of `stddev` (src/src/lib.rs:83): `None` on the empty slice,
otherwise `Some(summation_power(nums, mean(nums).unwrap()) / (len - 1) as f64)`.
The `unwrap()` is modelled by `Option.getD` (it never panics: `mean` always
returns `some`, see `mean_isSome`); `len - 1` is the `usize` subtraction,
hence `Nat` subtraction before the cast. -/
def stddev (nums : List F64) : Option F64 :=
  if nums = [] then none
  else
    some (F64.div (summation_power nums ((mean nums).getD F64.nan))
      (F64.fin ((nums.length - 1 : ℕ) : ℚ)))

/-- Fallible ordered insertion: inserts `x` into `l`, comparing with `cmp`
and placing `x` before the first element it does not compare `gt` to.
Returns `none` as soon as `cmp` returns `none` (modelling the panic of
`partial_cmp(..).unwrap()` in `median`'s comparator). -/
def insertM (cmp : F64 → F64 → Option Ordering) (x : F64) : List F64 → Option (List F64)
  | [] => some [x]
  | y :: ys =>
    match cmp x y with
    | none => none
    | some Ordering.gt => (insertM cmp x ys).map (fun t => y :: t)
    | some _ => some (x :: y :: ys)

/-- Fallible insertion sort with comparator `cmp`: model of
`nums.sort_by(|a, b| a.partial_cmp(b).unwrap())` on the working copy in
`median`.  `none` models a panic of the comparator; the exact comparison
schedule of Rust's sort is abstracted to insertion sort (any comparison-based
sort agrees on the sorted output for a total comparator, and must compare
the two elements of a two-element slice). -/
def sortM (cmp : F64 → F64 → Option Ordering) : List F64 → Option (List F64)
  | [] => some []
  | x :: xs => (sortM cmp xs).bind (insertM cmp x)

/-- Embedding of `median` (src/src/lib.rs:121): sorts a fresh copy of the
slice with the unwrapping comparator (outer `none` = that unwrap panicked),
then returns `some none` (Rust `None`) if the copy is empty, else
`some (some ..)` of the element at index `(length - 1) / 2`; the even and
odd branches of the source both return that same index (the interpolating
code is commented out in the source).  The in-bounds index access
`nums[offset / 2]` is modelled by `getD` with an unreachable default. -/
def median (nums : List F64) : Option (Option F64) :=
  match sortM F64.pcmp nums with
  | none => none
  | some sorted =>
    if sorted = [] then some none
    else
      let length := sorted.length
      let offset := length - 1
      if length % 2 = 0 then
        let first := sorted.getD (offset / 2) F64.nan
        some (some first)
      else
        some (some (sorted.getD (offset / 2) F64.nan))

/-- State-passing embedding of a call to `median`, making the caller's
buffer explicit: the Rust function borrows `nums: &[f64]` immutably and the
body sorts only the fresh working copy `nums.to_owned()`, so the caller's
sequence is returned alongside the result, untouched. -/
def medianCall (caller : List F64) : Option (Option F64) × List F64 :=
  (match sortM F64.pcmp caller with
   | none => none
   | some sorted =>
     if sorted = [] then some none
     else
       let length := sorted.length
       let offset := length - 1
       if length % 2 = 0 then
         let first := sorted.getD (offset / 2) F64.nan
         some (some first)
       else
         some (some (sorted.getD (offset / 2) F64.nan)),
   caller)

/-- Embedding of `l2` (src/src/lib.rs:173): `Some(0.0)` on the empty slice,
otherwise `Some(summation_power(nums, 0.0).sqrt())`. -/
def l2 (nums : List F64) : Option F64 :=
  if nums = [] then some (F64.fin 0)
  else some (F64.sqrt (summation_power nums (F64.fin 0)))

/-- Ranking key used only in proofs about `median`'s sort: `nan` first
(arbitrarily; it never occurs in the lists the key is applied to), then
`-inf`, then the finite values by rational order, then `+inf`. -/
def key : F64 → Lex (ℕ × ℚ)
  | F64.nan => toLex (0, 0)
  | F64.inf true => toLex (1, 0)
  | F64.fin q => toLex (2, q)
  | F64.inf false => toLex (3, 0)

/-- Total order on `F64` used only to prove sortedness of `median`'s output
on `nan`-free input: it agrees with `ble` away from `nan`. -/
def leT (a b : F64) : Prop :=
  key a ≤ key b

instance : DecidableRel leT := fun a b =>
  inferInstanceAs (Decidable (key a ≤ key b))

instance : IsTotal F64 leT :=
  ⟨fun a b => le_total (key a) (key b)⟩

instance : IsTrans F64 leT :=
  ⟨fun _ _ _ h h' => le_trans h h'⟩

theorem F64.add_fin_zero (a : F64) : F64.add a (F64.fin 0) = a := by
  cases a <;> simp [F64.add]

theorem F64.fin_zero_add (a : F64) : F64.add (F64.fin 0) a = a := by
  cases a <;> simp [F64.add]

theorem F64.add_assoc (a b c : F64) :
    F64.add (F64.add a b) c = F64.add a (F64.add b c) := by
  cases a <;> cases b <;> cases c <;>
    simp only [F64.add] <;> (try split_ifs) <;>
    simp_all [F64.add] <;> ring

theorem foldl_add_eq_Fsum (l : List F64) (a : F64) :
    l.foldl F64.add a = F64.add a (Fsum l) := by
  induction l generalizing a with
  | nil => simp [Fsum, F64.add_fin_zero]
  | cons x xs ih =>
      simp only [List.foldl, Fsum, List.foldr] at *
      rw [ih, F64.add_assoc]

theorem foldl_pair {α β γ : Type} (f : α → γ → α) (g : β → γ → β)
    (l : List γ) (a : α) (b : β) :
    l.foldl (fun p i => (f p.1 i, g p.2 i)) (a, b) = (l.foldl f a, l.foldl g b) := by
  induction l generalizing a b with
  | nil => rfl
  | cons x xs ih => simp [List.foldl, ih]

theorem foldl_counter (l : List F64) (k : ℚ) :
    l.foldl (fun x _ => F64.add x (F64.fin 1)) (F64.fin k) = F64.fin (k + l.length) := by
  induction l generalizing k with
  | nil => simp
  | cons x xs ih =>
      have h1 : F64.add (F64.fin k) (F64.fin 1) = F64.fin (k + 1) := rfl
      calc (x :: xs).foldl (fun x _ => F64.add x (F64.fin 1)) (F64.fin k)
          = xs.foldl (fun x _ => F64.add x (F64.fin 1)) (F64.fin (k + 1)) := by
            rw [List.foldl_cons, h1]
        _ = F64.fin (k + 1 + xs.length) := ih (k + 1)
        _ = F64.fin (k + (x :: xs).length) := by
            congr 1
            push_cast [List.length_cons]
            ring

theorem mean_isSome (nums : List F64) : (mean nums).isSome = true := by
  unfold mean
  split <;> simp

theorem F64.pcmp_ne_none (a b : F64) (ha : a ≠ F64.nan) (hb : b ≠ F64.nan) :
    F64.pcmp a b ≠ none := by
  cases a with
  | nan => exact absurd rfl ha
  | inf s =>
    cases b with
    | nan => exact absurd rfl hb
    | inf t => cases s <;> cases t <;> simp [F64.pcmp]
    | fin q => cases s <;> simp [F64.pcmp]
  | fin p =>
    cases b with
    | nan => exact absurd rfl hb
    | inf t => cases t <;> simp [F64.pcmp]
    | fin q =>
      simp only [F64.pcmp]
      split_ifs <;> simp

theorem F64.pcmp_gt_iff (a b : F64) (ha : a ≠ F64.nan) (hb : b ≠ F64.nan) :
    F64.pcmp a b = some Ordering.gt ↔ ¬ leT a b := by
  cases a with
  | nan => exact absurd rfl ha
  | inf s =>
    cases b with
    | nan => exact absurd rfl hb
    | inf t => cases s <;> cases t <;> simp [F64.pcmp, leT, key, Prod.Lex.le_iff]
    | fin q => cases s <;> simp [F64.pcmp, leT, key, Prod.Lex.le_iff]
  | fin p =>
    cases b with
    | nan => exact absurd rfl hb
    | inf t => cases t <;> simp [F64.pcmp, leT, key, Prod.Lex.le_iff]
    | fin q =>
      rcases lt_trichotomy p q with h | h | h
      · simp [F64.pcmp, leT, key, Prod.Lex.le_iff, h, h.le]
      · simp [F64.pcmp, leT, key, Prod.Lex.le_iff, h]
      · simp [F64.pcmp, leT, key, Prod.Lex.le_iff, asymm h, h.ne', not_le.mpr h]

theorem F64.leT_ble (a b : F64) (ha : a ≠ F64.nan) (hb : b ≠ F64.nan)
    (h : leT a b) : F64.ble a b = true := by
  have hne : F64.pcmp a b ≠ some Ordering.gt := fun hc =>
    ((F64.pcmp_gt_iff a b ha hb).mp hc) h
  have hnn : F64.pcmp a b ≠ none := F64.pcmp_ne_none a b ha hb
  cases hc : F64.pcmp a b with
  | none => exact absurd hc hnn
  | some o =>
    cases o with
    | lt => simp [F64.ble, hc]
    | eq => simp [F64.ble, hc]
    | gt => exact absurd hc hne

theorem insertM_eq (x : F64) (l : List F64) (hx : x ≠ F64.nan)
    (hl : ∀ y ∈ l, y ≠ F64.nan) :
    insertM F64.pcmp x l = some (List.orderedInsert leT x l) := by
  induction l with
  | nil => rfl
  | cons y ys ih =>
    have hy : y ≠ F64.nan := hl y (List.mem_cons_self y ys)
    have hys : ∀ z ∈ ys, z ≠ F64.nan := fun z hz => hl z (List.mem_cons_of_mem y hz)
    by_cases h : leT x y
    · have hgt : F64.pcmp x y ≠ some Ordering.gt := fun hc =>
        ((F64.pcmp_gt_iff x y hx hy).mp hc) h
      have hsome : F64.pcmp x y ≠ none := F64.pcmp_ne_none x y hx hy
      cases hc : F64.pcmp x y with
      | none => exact absurd hc hsome
      | some o =>
        cases o with
        | lt => simp [insertM, hc, List.orderedInsert, if_pos h]
        | eq => simp [insertM, hc, List.orderedInsert, if_pos h]
        | gt => exact absurd hc hgt
    · have hgt : F64.pcmp x y = some Ordering.gt := (F64.pcmp_gt_iff x y hx hy).mpr h
      simp [insertM, hgt, ih hys, List.orderedInsert, if_neg h]

theorem sortM_eq (l : List F64) (hl : ∀ y ∈ l, y ≠ F64.nan) :
    sortM F64.pcmp l = some (List.insertionSort leT l) := by
  induction l with
  | nil => rfl
  | cons x xs ih =>
    have hx : x ≠ F64.nan := hl x (List.mem_cons_self x xs)
    have hxs : ∀ z ∈ xs, z ≠ F64.nan := fun z hz => hl z (List.mem_cons_of_mem x hz)
    have hmem : ∀ z ∈ List.insertionSort leT xs, z ≠ F64.nan := fun z hz =>
      hxs z ((List.perm_insertionSort leT xs).mem_iff.mp hz)
    simp [sortM, ih hxs, insertM_eq x _ hx hmem, List.insertionSort]

theorem getD_mem {l : List F64} {i : ℕ} (h : i < l.length) (d : F64) :
    l.getD i d ∈ l := by
  rw [List.getD_eq_getElem?_getD, List.getElem?_eq_getElem h, Option.getD_some]
  exact List.getElem_mem h

theorem median_eq_sorted_getD (nums : List F64) (hne : nums ≠ [])
    (hl : ∀ y ∈ nums, y ≠ F64.nan) :
    median nums = some (some ((List.insertionSort leT nums).getD
      ((nums.length - 1) / 2) F64.nan)) := by
  have hperm := List.perm_insertionSort leT nums
  have hlen : (List.insertionSort leT nums).length = nums.length := hperm.length_eq
  have hL : List.insertionSort leT nums ≠ [] := by
    intro hc
    rw [hc] at hperm
    exact hne hperm.symm.eq_nil
  simp only [median, sortM_eq nums hl]
  rw [if_neg hL]
  split_ifs <;> simp [hlen]

/-- C6: for every sample and offset, `summation_power` returns the sum over
all elements of `(element - offset)` squared, and returns `0.0` on the empty
sample for any offset.  Its return type is a plain `F64`, not an `Option`,
so the result is never absent. -/
theorem C6_summation_power_sum (nums : List F64) (offset : F64) :
    summation_power nums offset
      = Fsum (nums.map (fun i => F64.powf2 (F64.sub i offset)))
    ∧ summation_power [] offset = F64.fin 0 := by
  constructor
  · unfold summation_power
    rw [← List.foldl_map (fun i => F64.powf2 (F64.sub i offset)) F64.add nums (F64.fin 0),
      foldl_add_eq_Fsum, F64.fin_zero_add]
  · rfl

/-- C3: `mean` never returns `None`: it returns `Some(0.0)` on the empty
sample, and otherwise `Some` of the sum of the elements divided by the
count, where the count is the float counter accumulated by adding `1.0`
once per element in the source loop (shown here to equal the cast length,
since the accumulation is exact in the model). -/
theorem C3_mean_spec (nums : List F64) :
    (mean nums).isSome = true
    ∧ mean [] = some (F64.fin 0)
    ∧ (nums ≠ [] →
        mean nums = some (F64.div (Fsum nums) (F64.fin (nums.length : ℚ)))) := by
  refine ⟨mean_isSome nums, rfl, fun h => ?_⟩
  unfold mean
  rw [if_neg h]
  rw [foldl_pair (fun x (_ : F64) => F64.add x (F64.fin 1)) F64.add nums
    (F64.fin 0) (F64.fin 0)]
  rw [foldl_counter nums 0, foldl_add_eq_Fsum nums (F64.fin 0), F64.fin_zero_add]
  norm_num

/-- C1: `stddev` returns `None` exactly on the empty sample; on a non-empty
sample it returns `Some` of `summation_power(sample, mean(sample))` divided
by `(count - 1)` as a float, with no square root taken anywhere. -/
theorem C1_stddev_spec (nums : List F64) :
    (stddev nums = none ↔ nums = [])
    ∧ (nums ≠ [] → ∃ m, mean nums = some m ∧
        stddev nums = some (F64.div (summation_power nums m)
          (F64.fin ((nums.length : ℚ) - 1)))) := by
  constructor
  · unfold stddev
    split <;> simp_all
  · intro h
    obtain ⟨m, hm⟩ : ∃ m, mean nums = some m :=
      Option.isSome_iff_exists.mp (mean_isSome nums)
    refine ⟨m, hm, ?_⟩
    unfold stddev
    rw [if_neg h, hm]
    have hlen : 1 ≤ nums.length := List.length_pos.mpr h
    rw [Option.getD_some, Nat.cast_sub hlen, Nat.cast_one]

theorem C1_witness :
    ∃ m, mean [F64.fin 2, F64.fin (-1)] = some m ∧
      stddev [F64.fin 2, F64.fin (-1)] = some (F64.div
        (summation_power [F64.fin 2, F64.fin (-1)] m)
        (F64.fin ((([F64.fin 2, F64.fin (-1)] : List F64).length : ℚ) - 1))) :=
  (C1_stddev_spec [F64.fin 2, F64.fin (-1)]).2 (by decide)

/-- C5: `l2` never returns `None`: it returns `Some(0.0)` on the empty
sample, and otherwise `Some` of the square root of
`summation_power(sample, 0.0)`, the sum of squares of all elements. -/
theorem C5_l2_spec (nums : List F64) :
    (l2 nums).isSome = true
    ∧ l2 [] = some (F64.fin 0)
    ∧ (nums ≠ [] → l2 nums = some (F64.sqrt (summation_power nums (F64.fin 0)))) := by
  refine ⟨?_, rfl, fun h => ?_⟩
  · unfold l2
    split <;> simp
  · unfold l2
    rw [if_neg h]

theorem C5_witness :
    l2 [F64.fin (-3), F64.fin 4]
      = some (F64.sqrt (summation_power [F64.fin (-3), F64.fin 4] (F64.fin 0))) :=
  (C5_l2_spec [F64.fin (-3), F64.fin 4]).2.2 (by decide)

/-- C8: on every one-element sample, `stddev` divides by `(n - 1) = 0` and
returns `Some` of a non-finite value (here always `nan`: the numerator
`summation_power([x], mean([x]))` is `0.0` for finite `x` and `nan`
otherwise, and `0.0 / 0.0` is `nan`), rather than `None` or a guarded
finite value. -/
theorem C8_stddev_singleton (x : F64) :
    stddev [x] = some F64.nan ∧ F64.nan.isFinite = false := by
  refine ⟨?_, rfl⟩
  cases x with
  | nan => rfl
  | inf s =>
    cases s <;>
      norm_num [stddev, mean, summation_power, F64.add, F64.sub, F64.neg,
        F64.powf2, F64.div]
  | fin q =>
    simp [stddev, mean, summation_power, F64.add, F64.sub, F64.neg, F64.powf2,
      F64.div]

/-- C7: across the module, an absent result occurs exactly for `stddev` and
`median` on the empty sample: `mean` and `l2` return `Some` on every sample,
`stddev` returns `None` iff the sample is empty, and (for samples free of
`NaN`, on which `median`'s sort returns at all) `median` returns Rust's
`None` iff the sample is empty. -/
theorem C7_none_contract (nums : List F64) :
    (mean nums).isSome = true
    ∧ (l2 nums).isSome = true
    ∧ (stddev nums = none ↔ nums = [])
    ∧ (F64.nan ∉ nums →
        ∃ r, median nums = some r ∧ (r = none ↔ nums = [])) := by
  refine ⟨mean_isSome nums, ?_, ?_, fun h => ?_⟩
  · unfold l2
    split <;> simp
  · unfold stddev
    split <;> simp_all
  · have hl : ∀ y ∈ nums, y ≠ F64.nan := fun y hy he => h (he ▸ hy)
    by_cases he : nums = []
    · subst he
      exact ⟨none, rfl, by simp⟩
    · exact ⟨some ((List.insertionSort leT nums).getD ((nums.length - 1) / 2) F64.nan),
        median_eq_sorted_getD nums he hl, by simp [he]⟩

theorem C7_witness :
    ∃ r, median [F64.fin 1] = some r ∧ (r = none ↔ [F64.fin 1] = ([] : List F64)) :=
  (C7_none_contract [F64.fin 1]).2.2.2 (by decide)

/-- C2: on every non-empty sample free of `NaN`, `median` returns `Some` of
the element at index `(n - 1) / 2` (integer floor division) of a sorted
(non-decreasing, by the `partial_cmp` order) permutation of the sample; for
even `n` this is the lower central element, and no averaging occurs. -/
theorem C2_median_spec (nums : List F64) (hne : nums ≠ []) (hnan : F64.nan ∉ nums) :
    ∃ l, nums.Perm l ∧ List.Sorted (fun a b => F64.ble a b = true) l
      ∧ (nums.length - 1) / 2 < l.length
      ∧ median nums = some (some (l.getD ((nums.length - 1) / 2) F64.nan)) := by
  have hl : ∀ y ∈ nums, y ≠ F64.nan := fun y hy he => hnan (he ▸ hy)
  have hperm := List.perm_insertionSort leT nums
  have hlen : (List.insertionSort leT nums).length = nums.length := hperm.length_eq
  have hL : List.insertionSort leT nums ≠ [] := by
    intro hc
    rw [hc] at hperm
    exact hne hperm.symm.eq_nil
  refine ⟨List.insertionSort leT nums, hperm.symm, ?_, ?_, ?_⟩
  · exact List.Pairwise.imp_of_mem
      (fun {a b} ha hb hr =>
        F64.leT_ble a b (hl a (hperm.mem_iff.mp ha)) (hl b (hperm.mem_iff.mp hb)) hr)
      (List.sorted_insertionSort leT nums)
  · rw [hlen]
    exact lt_of_le_of_lt (Nat.div_le_self _ _)
      (Nat.sub_lt (List.length_pos.mpr hne) one_pos)
  · exact median_eq_sorted_getD nums hne hl

theorem C2_witness :
    ∃ l, List.Perm [F64.fin 0, F64.fin (-1), F64.fin 1] l
      ∧ List.Sorted (fun a b => F64.ble a b = true) l
      ∧ (([F64.fin 0, F64.fin (-1), F64.fin 1] : List F64).length - 1) / 2 < l.length
      ∧ median [F64.fin 0, F64.fin (-1), F64.fin 1]
          = some (some (l.getD
              ((([F64.fin 0, F64.fin (-1), F64.fin 1] : List F64).length - 1) / 2)
              F64.nan)) :=
  C2_median_spec [F64.fin 0, F64.fin (-1), F64.fin 1] (by decide) (by decide)

/-- C9: a call to `median` leaves the caller's sequence unchanged, in order
and contents: the function borrows the slice immutably and sorts only a
transient copy, so the state-passing embedding returns the caller's buffer
as it was, together with the same result `median` computes. -/
theorem C9_median_frame (nums : List F64) :
    (medianCall nums).2 = nums ∧ (medianCall nums).1 = median nums :=
  ⟨rfl, rfl⟩

/-- C10: `median`'s comparator unwraps `partial_cmp`: on every sample with
no `NaN` element the unwrap never fails and `median` returns normally
(`Some` of an element of the sample, or `None` on the empty sample), while
for some sample containing `NaN` the unwrap fails and the call panics
(outer `none`) instead of returning. -/
theorem C10_median_nan :
    (∀ nums : List F64, F64.nan ∉ nums →
       ∃ r, median nums = some r
         ∧ (nums = [] → r = none)
         ∧ (nums ≠ [] → ∃ v, r = some v ∧ v ∈ nums))
    ∧ (∃ l : List F64, F64.nan ∈ l ∧ median l = none) := by
  constructor
  · intro nums h
    have hl : ∀ y ∈ nums, y ≠ F64.nan := fun y hy he => h (he ▸ hy)
    have hperm := List.perm_insertionSort leT nums
    by_cases he : nums = []
    · subst he
      exact ⟨none, rfl, fun _ => rfl, fun hc => absurd rfl hc⟩
    · have hlen : (List.insertionSort leT nums).length = nums.length := hperm.length_eq
      have hidx2 : (nums.length - 1) / 2 < (List.insertionSort leT nums).length := by
        rw [hlen]
        exact lt_of_le_of_lt (Nat.div_le_self _ _)
          (Nat.sub_lt (List.length_pos.mpr he) one_pos)
      refine ⟨some ((List.insertionSort leT nums).getD
        ((nums.length - 1) / 2) F64.nan), median_eq_sorted_getD nums he hl, ?_, ?_⟩
      · intro hc
        exact absurd hc he
      · intro _
        exact ⟨_, rfl, hperm.mem_iff.mp (getD_mem hidx2 F64.nan)⟩
  · exact ⟨[F64.nan, F64.fin 0], by decide, by decide⟩

theorem C10_witness :
    ∃ r, median [F64.fin 0] = some r
      ∧ ([F64.fin 0] = ([] : List F64) → r = none)
      ∧ ([F64.fin 0] ≠ ([] : List F64) →
          ∃ v, r = some v ∧ v ∈ [F64.fin 0]) :=
  C10_median_nan.1 [F64.fin 0] (by decide)

theorem C3_witness :
    mean [F64.fin (-1), F64.fin 1]
      = some (F64.div (Fsum [F64.fin (-1), F64.fin 1])
          (F64.fin (([F64.fin (-1), F64.fin 1] : List F64).length : ℚ))) :=
  (C3_mean_spec [F64.fin (-1), F64.fin 1]).2.2 (by decide)
